import Mathlib

/-!
Shallow embedding of the spreadsheet-analysis pipeline (src/index.py):
column-name normalization (strip / title / make_unique), table cleaning
(strip cells, drop duplicate rows, drop fully-empty rows and columns),
the groupby aggregations, the inconsistency checks, the pie-chart path,
and the per-unit dashboard column coercion.
-/

namespace Planilhas

/-! ## String primitives: Python str.strip and str.title -/

/-- Python str.strip on a list of characters: drop leading and trailing
whitespace. -/
def trimChars (l : List Char) : List Char :=
  ((l.dropWhile Char.isWhitespace).reverse.dropWhile Char.isWhitespace).reverse

/-- Python str.strip. -/
def pyStrip (s : String) : String :=
  String.mk (trimChars s.toList)

/-- Helper for Python str.title: the Bool tracks whether the previous
character was alphabetic. -/
def pyTitleAux : Bool → List Char → List Char
  | _, [] => []
  | prevAlpha, c :: t =>
    if c.isAlpha then
      (if prevAlpha then c.toLower else c.toUpper) :: pyTitleAux true t
    else
      c :: pyTitleAux false t

/-- Python str.title (ASCII behavior): the first letter of each
maximal run of letters is uppercased, the rest lowercased. -/
def pyTitle (s : String) : String :=
  String.mk (pyTitleAux false s.toList)

/-- Header normalization of line 53: str(col).strip().title(). -/
def normalizeCol (s : String) : String :=
  pyTitle (pyStrip s)

/-! ## make_unique (lines 56-67) -/

/-- The loop body of make_unique: seen is the Python dict (most recent
binding first, as an association list). -/
def make_unique_aux (seen : List (String × Nat)) : List String → List String
  | [] => []
  | col :: rest =>
    match seen.lookup col with
    | none => col :: make_unique_aux ((col, 0) :: seen) rest
    | some n => (col ++ "_" ++ toString (n + 1)) :: make_unique_aux ((col, n + 1) :: seen) rest

/-- make_unique from src/index.py lines 56-66. -/
def make_unique (cols : List String) : List String :=
  make_unique_aux [] cols

/-- Full column-header normalization of lines 53 and 67: strip and
title-case every name, then de-duplicate with make_unique. -/
def normalizeCols (cols : List String) : List String :=
  make_unique (cols.map normalizeCol)

/-- Modelled from the spec's words (section 4.1): the collider is
suffixed with an underscore and a 1-based occurrence counter specific to
that name; the first occurrence of any name remains unsuffixed.  prior
is the list of names already processed. -/
def suffix_rule (prior : List String) : List String → List String
  | [] => []
  | c :: t =>
    (if prior.count c = 0 then c else c ++ "_" ++ toString (prior.count c)) ::
      suffix_rule (prior ++ [c]) t

/-! ## Data model: cells, rows, tables -/

/-- A non-empty cell value: a string or a number (pandas object cells). -/
inductive Val where
  | vStr (s : String)
  | vInt (n : Int)
deriving DecidableEq, Repr

/-- A cell: empty (NaN) or a value. -/
abbrev Cell := Option Val

/-- A row is the ordered list of its cells. -/
abbrev Row := List Cell

/-- A Table is the ordered list of its rows (columns are positional). -/
abbrev Table := List Row

/-- Cell access by column position; positions beyond the row read as
empty, matching a missing value. -/
def getCell (r : Row) (j : Nat) : Cell :=
  r.getD j none

/-! ## Cleaning (lines 70-73) -/

/-- Line 70: x.strip() if isinstance(x, str) else x. -/
def stripCell : Cell → Cell
  | some (Val.vStr s) => some (Val.vStr (pyStrip s))
  | c => c

def stripRow (r : Row) : Row := r.map stripCell

/-- Line 70: df.applymap(strip-if-string). -/
def stripTable (t : Table) : Table := t.map stripRow

/-- Worker for firsts: seen accumulates the elements already emitted. -/
def firstsAux {α : Type} [DecidableEq α] (seen : List α) : List α → List α
  | [] => []
  | a :: t => if a ∈ seen then firstsAux seen t else a :: firstsAux (a :: seen) t

/-- Keep the first occurrence of each distinct element, dropping later
duplicates (pandas drop_duplicates keep=first; NaN keys compare equal). -/
def firsts {α : Type} [DecidableEq α] (l : List α) : List α :=
  firstsAux [] l

/-- A row is fully empty when every cell is empty (dropna how=all drops
it; a zero-column row counts as fully empty, as in pandas). -/
def rowEmpty (r : Row) : Bool := r.all (· = none)

/-- Line 72: df.dropna(how=all) on rows. -/
def dropEmptyRows (t : Table) : Table := t.filter (fun r => !(rowEmpty r))

/-- Column j is fully empty when every row reads empty there. -/
def colEmpty (t : Table) (j : Nat) : Bool := t.all (fun r => getCell r j = none)

/-- The column positions kept by df.dropna(axis=1, how=all), for a table
of width w. -/
def keepCols (t : Table) (w : Nat) : List Nat :=
  (List.range w).filter (fun j => !(colEmpty t j))

/-- Project a row onto the given column positions, in order. -/
def selectCols (r : Row) (js : List Nat) : Row := js.map (fun j => getCell r j)

/-- Lines 70-73: strip cells, drop duplicate rows (keep first), drop
fully-empty rows, drop fully-empty columns.  Returns the cleaned table
together with its new width. -/
def clean (t : Table) (w : Nat) : Table × Nat :=
  let t3 := dropEmptyRows (firsts (stripTable t))
  let js := keepCols t3 w
  (t3.map (fun r => selectCols r js), js.length)

/-- Line 98: df.duplicated().any() — some row equals an earlier row. -/
def hasDuplicateRows : Table → Bool
  | [] => false
  | r :: rest => r ∈ rest || hasDuplicateRows rest

/-! ## Aggregation (lines 85 and 89) -/

/-- A row enters the two-column groupby only when both grouping cells
are non-empty (pandas drops NaN group keys). -/
def validKey2 (i j : Nat) (r : Row) : Bool :=
  (getCell r i).isSome && (getCell r j).isSome

/-- Line 85: df.groupby([col_unidade, col_carteira])[col_pessoa].count():
for each distinct (unit, portfolio) pair among rows with both keys
non-empty, the number of rows of that pair whose target cell is
non-empty.  (pandas additionally sorts the groups; the multiset of
counts is the same.) -/
def resumo (t : Table) (i j p : Nat) : List ((Cell × Cell) × Nat) :=
  let rows := t.filter (validKey2 i j)
  (firsts (rows.map (fun r => (getCell r i, getCell r j)))).map
    (fun k => (k, (rows.filter (fun r => (getCell r i, getCell r j) = k)).countP
      (fun r => (getCell r p).isSome)))

/-- The sum of all per-combination counts of line 85. -/
def resumoSum (t : Table) (i j p : Nat) : Nat :=
  ((resumo t i j p).map (fun kv => kv.2)).sum

/-- The count of non-empty target-column cells over the whole table. -/
def countTarget (t : Table) (p : Nat) : Nat :=
  t.countP (fun r => (getCell r p).isSome)

/-! ## Pie-chart path (lines 122-134) -/

/-- pandas addition on object cells: strings concatenate, numbers add,
a mixed pair raises (none). -/
def addVal : Val → Val → Option Val
  | Val.vStr a, Val.vStr b => some (Val.vStr (a ++ b))
  | Val.vInt a, Val.vInt b => some (Val.vInt (a + b))
  | _, _ => none

/-- pandas Series.sum over a group's cells: empty cells are skipped, an
all-empty (or empty) group sums to 0, and a mixed string/number group
raises (none). -/
def pdSum (l : List Cell) : Option Val :=
  match l.filterMap id with
  | [] => some (Val.vInt 0)
  | v :: rest => rest.foldlM addVal v

/-- Digit-run parser used by numeric coercion. -/
def digitsToNat (ds : List Char) : Option Nat :=
  if ds ≠ [] ∧ ds.all Char.isDigit then
    some (ds.foldl (fun acc c => acc * 10 + (c.toNat - Char.toNat '0')) 0)
  else
    none

/-- pd.to_numeric(errors=coerce) on a string scalar: surrounding
whitespace is ignored, an optional sign then digits parse, anything else
coerces to empty. -/
def parseIntStr (s : String) : Option Int :=
  match (pyStrip s).toList with
  | '-' :: ds => (digitsToNat ds).map (fun n => -(n : Int))
  | '+' :: ds => (digitsToNat ds).map (fun n => (n : Int))
  | ds => (digitsToNat ds).map (fun n => (n : Int))

/-- pd.to_numeric(errors=coerce) on a value: numbers pass through,
strings are parsed, failures become empty. -/
def toNumericInt : Val → Option Int
  | Val.vInt n => some n
  | Val.vStr s => parseIntStr s

/-- Line 122: df.groupby(col_carteira)[col_valor].sum() — for each
distinct non-empty value of column c, the pandas sum of the raw cells
of column v over that group (none records a raised TypeError). -/
def resumo_pizza (t : Table) (c v : Nat) : List (Cell × Option Val) :=
  (firsts ((t.filter (fun r => (getCell r c).isSome)).map (fun r => getCell r c))).map
    (fun k => (k, pdSum ((t.filter (fun r => getCell r c = k)).map (fun r => getCell r v))))

/-- Lines 123-124: the per-group sums are coerced to numeric and the
groups whose sum fails coercion are dropped. -/
def coercedGroups (t : Table) (c v : Nat) : List (Cell × Int) :=
  (resumo_pizza t c v).filterMap
    (fun kv => kv.2.bind (fun s => (toNumericInt s).map (fun n => (kv.1, n))))

/-- Outcome of the pie-chart branch. -/
inductive PieOutcome where
  | crash
  | warn
  | chart (data : List (Cell × Int))
deriving DecidableEq, Repr

/-- Lines 122-134: compute raw per-group sums (a raised TypeError is a
crash), coerce the sums, drop failures, then warn when nothing remains
and otherwise chart the surviving groups. -/
def pieStep (t : Table) (c v : Nat) : PieOutcome :=
  if (resumo_pizza t c v).any (fun kv => kv.2 = none) then
    PieOutcome.crash
  else if coercedGroups t c v = [] then
    PieOutcome.warn
  else
    PieOutcome.chart (coercedGroups t c v)

/-- Modelled from the spec's words (section 7 / claim C3): coerce each
individual cell first, drop the cells that fail coercion, and sum the
surviving numeric values per group. -/
def resumo_pizza_cellwise (t : Table) (c v : Nat) : List (Cell × Int) :=
  (firsts ((t.filter (fun r => (getCell r c).isSome)).map (fun r => getCell r c))).map
    (fun k => (k, (((t.filter (fun r => getCell r c = k)).map (fun r => getCell r v)).filterMap
      (fun cell => cell.bind toNumericInt)).sum))

/-! ## Per-unit dashboard mutation (line 139) -/

/-- Numeric coercion of one cell: empty stays empty, a value that fails
coercion becomes empty. -/
def to_numeric_cell (c : Cell) : Cell :=
  c.bind (fun v => (toNumericInt v).map Val.vInt)

/-- Replace the cell at position j of a row by f of it. -/
def modifyCol (f : Cell → Cell) : Nat → Row → Row
  | _, [] => []
  | 0, c :: r => f c :: r
  | j + 1, c :: r => c :: modifyCol f j r

/-- Line 139: df[col_valor_unidade] = pd.to_numeric(df[col_valor_unidade],
errors=coerce) — overwrite column j with its numeric coercion. -/
def setColNumeric (t : Table) (j : Nat) : Table :=
  t.map (fun r => modifyCol to_numeric_cell j r)

/-! ## Header-row bound (lines 44-47) -/

/-- The largest selectable header-row index for a sheet whose default
load has nRows rows: min(50, nRows - 1). -/
def linha_cabecalho_max (nRows : Nat) : Nat := min 50 (nRows - 1)

/-- Lines 44-47: an index is selectable in the number input exactly when
it is at most the bound (the minimum, 0, is automatic for Nat). -/
def linha_cabecalho_valid (nRows idx : Nat) : Bool :=
  idx ≤ linha_cabecalho_max nRows

/-! ## Helper lemmas: strings -/

theorem dropWhile_eq_self_of_head {α : Type} (p : α → Bool) (l : List α)
    (h : ∀ c ∈ l.head?, p c = false) : l.dropWhile p = l := by
  cases l with
  | nil => rfl
  | cons a t =>
    simp only [List.head?_cons, Option.mem_some_iff] at h
    simp [List.dropWhile_cons, h a rfl]

theorem head_dropWhile_false {α : Type} (p : α → Bool) (l : List α) :
    ∀ c ∈ (l.dropWhile p).head?, p c = false := by
  induction l with
  | nil => simp [List.dropWhile]
  | cons a t ih =>
    by_cases h : p a
    · simpa [List.dropWhile_cons, h] using ih
    · intro c hc
      simp only [List.dropWhile_cons, h] at hc
      simp only [Bool.false_eq_true, if_false, List.head?_cons, Option.mem_some_iff] at hc
      subst hc
      simpa using h

theorem dropWhile_dropWhile {α : Type} (p : α → Bool) (l : List α) :
    (l.dropWhile p).dropWhile p = l.dropWhile p :=
  dropWhile_eq_self_of_head p _ (head_dropWhile_false p l)

theorem getLast?_dropWhile {α : Type} (p : α → Bool) (l : List α)
    (h : l.dropWhile p ≠ []) : (l.dropWhile p).getLast? = l.getLast? := by
  induction l with
  | nil => simp [List.dropWhile] at h
  | cons a t ih =>
    by_cases hp : p a
    · have hdw : (a :: t).dropWhile p = t.dropWhile p := by simp [List.dropWhile_cons, hp]
      rw [hdw] at h ⊢
      have ht : t ≠ [] := by
        intro he; subst he; simp [List.dropWhile] at h
      rw [ih h]
      cases t with
      | nil => exact absurd rfl ht
      | cons b u => simp [List.getLast?_cons_cons]
    · simp [List.dropWhile_cons, hp]

theorem trimChars_idem (l : List Char) : trimChars (trimChars l) = trimChars l := by
  unfold trimChars
  set p := Char.isWhitespace with hp
  set a := l.dropWhile p with ha
  set b := (a.reverse).dropWhile p with hb
  have hRb : ∀ c ∈ b.reverse.head?, p c = false := by
    intro c hc
    rw [List.head?_reverse] at hc
    have hbne : b ≠ [] := by
      intro he; rw [he] at hc; simp at hc
    rw [hb, getLast?_dropWhile p _ (hb ▸ hbne), List.getLast?_reverse] at hc
    exact head_dropWhile_false p l c (ha ▸ hc)
  have h1 : b.reverse.dropWhile p = b.reverse := dropWhile_eq_self_of_head p _ hRb
  rw [h1, List.reverse_reverse, hb, dropWhile_dropWhile]

theorem pyStrip_idem (s : String) : pyStrip (pyStrip s) = pyStrip s :=
  congrArg String.mk (trimChars_idem s.toList)

theorem stripCell_idem (c : Cell) : stripCell (stripCell c) = stripCell c := by
  cases c with
  | none => rfl
  | some v =>
    cases v with
    | vStr s => simp [stripCell, pyStrip_idem]
    | vInt n => rfl

theorem stripCell_eq_none_iff (c : Cell) : stripCell c = none ↔ c = none := by
  cases c with
  | none => simp [stripCell]
  | some v => cases v <;> simp [stripCell]

/-! ## Helper lemmas: firsts -/

theorem mem_firstsAux {α : Type} [DecidableEq α] (seen : List α) (l : List α) (x : α) :
    x ∈ firstsAux seen l ↔ x ∈ l ∧ x ∉ seen := by
  induction l generalizing seen with
  | nil => simp [firstsAux]
  | cons a t ih =>
    by_cases h : a ∈ seen
    · rw [firstsAux, if_pos h, ih]
      constructor
      · rintro ⟨hx, hs⟩
        exact ⟨List.mem_cons_of_mem a hx, hs⟩
      · rintro ⟨hx, hs⟩
        rcases List.mem_cons.mp hx with rfl | hx
        · exact absurd h hs
        · exact ⟨hx, hs⟩
    · rw [firstsAux, if_neg h]
      simp only [List.mem_cons, ih, List.mem_cons]
      constructor
      · rintro (rfl | ⟨hx, hs⟩)
        · exact ⟨Or.inl rfl, h⟩
        · exact ⟨Or.inr hx, fun hc => hs (Or.inr hc)⟩
      · rintro ⟨rfl | hx, hs⟩
        · exact Or.inl rfl
        · by_cases hax : x = a
          · exact Or.inl hax
          · refine Or.inr ⟨hx, ?_⟩
            intro hc
            rcases hc with h1 | h1
            · exact hax h1
            · exact hs h1

theorem nodup_firstsAux {α : Type} [DecidableEq α] (seen : List α) (l : List α) :
    (firstsAux seen l).Nodup := by
  induction l generalizing seen with
  | nil => simp [firstsAux]
  | cons a t ih =>
    by_cases h : a ∈ seen
    · rw [firstsAux, if_pos h]; exact ih seen
    · rw [firstsAux, if_neg h]
      refine List.nodup_cons.mpr ⟨?_, ih (a :: seen)⟩
      intro hmem
      exact ((mem_firstsAux _ _ _).mp hmem).2 (List.mem_cons_self a seen)

theorem firstsAux_sublist {α : Type} [DecidableEq α] (seen : List α) (l : List α) :
    (firstsAux seen l).Sublist l := by
  induction l generalizing seen with
  | nil => simp [firstsAux]
  | cons a t ih =>
    by_cases h : a ∈ seen
    · rw [firstsAux, if_pos h]; exact (ih seen).cons a
    · rw [firstsAux, if_neg h]; exact (ih (a :: seen)).cons₂ a

theorem firstsAux_eq_self {α : Type} [DecidableEq α] (seen : List α) (l : List α)
    (hnd : l.Nodup) (hs : ∀ x ∈ l, x ∉ seen) : firstsAux seen l = l := by
  induction l generalizing seen with
  | nil => rfl
  | cons a t ih =>
    have ha : a ∉ seen := hs a (List.mem_cons_self a t)
    rw [firstsAux, if_neg ha]
    congr 1
    refine ih (a :: seen) (List.nodup_cons.mp hnd).2 ?_
    intro x hx hmem
    rcases List.mem_cons.mp hmem with rfl | hmem
    · exact (List.nodup_cons.mp hnd).1 hx
    · exact hs x (List.mem_cons_of_mem a hx) hmem

theorem mem_firsts {α : Type} [DecidableEq α] (l : List α) (x : α) :
    x ∈ firsts l ↔ x ∈ l := by
  rw [firsts, mem_firstsAux]
  simp

theorem nodup_firsts {α : Type} [DecidableEq α] (l : List α) : (firsts l).Nodup :=
  nodup_firstsAux [] l

theorem firsts_sublist {α : Type} [DecidableEq α] (l : List α) : (firsts l).Sublist l :=
  firstsAux_sublist [] l

theorem firsts_eq_self_of_nodup {α : Type} [DecidableEq α] (l : List α)
    (hnd : l.Nodup) : firsts l = l :=
  firstsAux_eq_self [] l hnd (by simp)

theorem countP_filter_add {α : Type} (p q : α → Bool) (l : List α) :
    (l.filter q).countP p + (l.filter (fun a => !(q a))).countP p = l.countP p := by
  induction l with
  | nil => rfl
  | cons a t ih =>
    by_cases h : q a
    · simp only [List.filter_cons, h, List.countP_cons, ih.symm, Bool.not_true, if_false]
      by_cases hp : p a <;> simp [hp] <;> omega
    · simp only [List.filter_cons, h, List.countP_cons, Bool.not_false, if_true]
      by_cases hp : p a <;> simp [hp, List.countP_cons] <;> omega

theorem countP_add_disj {α : Type} (f g h : α → Bool) (l : List α)
    (hd : ∀ x, (f x && g x) = false) (hs : ∀ x, h x = (f x || g x)) :
    l.countP f + l.countP g = l.countP h := by
  induction l with
  | nil => rfl
  | cons a t ih =>
    simp only [List.countP_cons, hs a]
    have := hd a
    by_cases hf : f a <;> by_cases hg : g a <;>
      simp [hf, hg] at this ⊢ <;> omega

theorem sum_firstsAux {α κ : Type} [DecidableEq κ] (key : α → κ) (p : α → Bool)
    (l : List α) (seen : List κ) :
    ((firstsAux seen (l.map key)).map
        (fun k => (l.filter (fun a => key a = k)).countP p)).sum
      = (l.filter (fun a => key a ∉ seen)).countP p := by
  induction l generalizing seen with
  | nil => simp [firstsAux]
  | cons a t ih =>
    by_cases h : key a ∈ seen
    · rw [List.map_cons, firstsAux, if_pos h]
      have hcong : ∀ k ∈ firstsAux seen (t.map key),
          ((a :: t).filter (fun x => key x = k)).countP p
            = (t.filter (fun x => key x = k)).countP p := by
        intro k hk
        have hkn : k ∉ seen := ((mem_firstsAux _ _ _).mp hk).2
        have hne : ¬ (key a = k) := fun he => hkn (he ▸ h)
        simp [List.filter_cons, hne]
      rw [List.map_congr_left hcong, ih seen, List.filter_cons]
      simp [h]
    · rw [List.map_cons, firstsAux, if_neg h, List.map_cons, List.sum_cons]
      have hcong : ∀ k ∈ firstsAux (key a :: seen) (t.map key),
          ((a :: t).filter (fun x => key x = k)).countP p
            = (t.filter (fun x => key x = k)).countP p := by
        intro k hk
        have hkn : k ∉ key a :: seen := ((mem_firstsAux _ _ _).mp hk).2
        have hne : ¬ (key a = k) := fun he => hkn (he ▸ List.mem_cons_self _ _)
        simp [List.filter_cons, hne]
      rw [List.map_congr_left hcong, ih (key a :: seen)]
      have h1 : ((a :: t).filter (fun x => key x = key a)).countP p
          = (if p a then 1 else 0) + (t.filter (fun x => key x = key a)).countP p := by
        simp only [List.filter_cons, decide_eq_true_eq, eq_self_iff_true, if_true,
          List.countP_cons]
        by_cases hp : p a <;> simp [hp] <;> omega
      have h2 : ((a :: t).filter (fun x => key x ∉ seen)).countP p
          = (if p a then 1 else 0) + (t.filter (fun x => key x ∉ seen)).countP p := by
        simp only [List.filter_cons]
        rw [if_pos (by simpa using h), List.countP_cons]
        by_cases hp : p a <;> simp [hp] <;> omega
      rw [h1, h2]
      have key3 : (t.filter (fun x => key x = key a)).countP p
          + (t.filter (fun x => key x ∉ key a :: seen)).countP p
          = (t.filter (fun x => key x ∉ seen)).countP p := by
        rw [List.countP_filter, List.countP_filter, List.countP_filter]
        refine countP_add_disj _ _ _ t ?_ ?_
        · intro x
          by_cases h1 : key x = key a
          · simp [h1]
          · simp [h1]
        · intro x
          by_cases hp : p x <;> by_cases h1 : key x = key a <;>
            by_cases h2 : key x ∈ seen <;> simp [hp, h1, h2] <;> tauto
      omega

/-- Summing any statistic countP p over the groups of a groupby recovers
the statistic over all grouped elements. -/
theorem sum_firsts_countP {α κ : Type} [DecidableEq κ] (key : α → κ) (p : α → Bool)
    (l : List α) :
    ((firsts (l.map key)).map
        (fun k => (l.filter (fun a => key a = k)).countP p)).sum = l.countP p := by
  rw [firsts, sum_firstsAux]
  simp

/-! ## Helper lemmas: make_unique -/

theorem make_unique_aux_eq_self (l : List String) (seen : List (String × Nat))
    (hnd : l.Nodup) (hs : ∀ c ∈ l, seen.lookup c = none) :
    make_unique_aux seen l = l := by
  induction l generalizing seen with
  | nil => rfl
  | cons col rest ih =>
    have h0 : seen.lookup col = none := hs col (List.mem_cons_self _ _)
    simp only [make_unique_aux, h0]
    congr 1
    refine ih ((col, 0) :: seen) (List.nodup_cons.mp hnd).2 ?_
    intro c hc
    have hne : c ≠ col := by
      intro he; subst he; exact (List.nodup_cons.mp hnd).1 hc
    have hbe : (c == col) = false := by simpa using hne
    simp only [List.lookup, hbe]
    exact hs c (List.mem_cons_of_mem _ hc)

theorem make_unique_eq_self_of_nodup (l : List String) (hnd : l.Nodup) :
    make_unique l = l :=
  make_unique_aux_eq_self l [] hnd (fun _ _ => rfl)

theorem make_unique_aux_eq_rule (l : List String) (seen : List (String × Nat))
    (prior : List String)
    (hseen : ∀ c, seen.lookup c =
      if prior.count c = 0 then none else some (prior.count c - 1)) :
    make_unique_aux seen l = suffix_rule prior l := by
  induction l generalizing seen prior with
  | nil => rfl
  | cons col rest ih =>
    by_cases h0 : prior.count col = 0
    · have hl : seen.lookup col = none := by rw [hseen col, if_pos h0]
      simp only [make_unique_aux, hl, suffix_rule, if_pos h0]
      congr 1
      refine ih ((col, 0) :: seen) (prior ++ [col]) ?_
      intro c
      by_cases hc : c = col
      · subst hc
        have hcnt : (prior ++ [c]).count c = 1 := by
          simp [List.count_append, h0]
        simp only [List.lookup, beq_self_eq_true, hcnt]
        simp
      · have hbe : (c == col) = false := by simpa using hc
        have hcount : (prior ++ [col]).count c = prior.count c := by
          simp [List.count_append, List.count_cons, hc]
        simp only [List.lookup, hbe, hcount]
        exact hseen c
    · obtain ⟨n, hn⟩ : ∃ n, prior.count col = n + 1 :=
        ⟨prior.count col - 1, (Nat.succ_pred_eq_of_pos (Nat.pos_of_ne_zero h0)).symm⟩
      have hl : seen.lookup col = some n := by
        rw [hseen col, if_neg h0, hn]; simp
      simp only [make_unique_aux, hl, suffix_rule, if_neg h0, hn]
      congr 1
      refine ih ((col, n + 1) :: seen) (prior ++ [col]) ?_
      intro c
      by_cases hc : c = col
      · subst hc
        have hcnt : (prior ++ [c]).count c = n + 2 := by
          simp [List.count_append, hn]
        simp only [List.lookup, beq_self_eq_true, hcnt]
        simp
      · have hbe : (c == col) = false := by simpa using hc
        have hcount : (prior ++ [col]).count c = prior.count c := by
          simp [List.count_append, List.count_cons, hc]
        simp only [List.lookup, hbe, hcount]
        exact hseen c

/-- make_unique computes exactly the per-name 1-based occurrence
suffixing rule of the spec. -/
theorem make_unique_eq_rule (l : List String) : make_unique l = suffix_rule [] l :=
  make_unique_aux_eq_rule l [] [] (fun c => by simp)

/-! ## Helper lemmas: rows, columns, cleaning -/

theorem getCell_stripRow (r : Row) (j : Nat) :
    getCell (stripRow r) j = stripCell (getCell r j) := by
  induction r generalizing j with
  | nil => cases j <;> rfl
  | cons c t ih =>
    cases j with
    | zero => rfl
    | succ k => exact ih k

theorem length_stripRow (r : Row) : (stripRow r).length = r.length :=
  List.length_map r stripCell

theorem stripRow_idem (r : Row) : stripRow (stripRow r) = stripRow r := by
  simp only [stripRow, List.map_map]
  exact List.map_congr_left (fun c _ => stripCell_idem c)

theorem rowEmpty_stripRow (r : Row) : rowEmpty (stripRow r) = rowEmpty r := by
  simp only [rowEmpty, stripRow, List.all_map]
  congr 1
  funext c
  simp [Function.comp, stripCell_eq_none_iff]

theorem rowEmpty_eq_false_iff (r : Row) :
    rowEmpty r = false ↔ ∃ j, j < r.length ∧ getCell r j ≠ none := by
  rw [rowEmpty, List.all_eq_false]
  constructor
  · rintro ⟨c, hc, hne⟩
    obtain ⟨j, hj, he⟩ := List.mem_iff_getElem.mp hc
    refine ⟨j, hj, ?_⟩
    rw [getCell, List.getD_eq_getElem?_getD, List.getElem?_eq_getElem hj]
    simpa [he] using hne
  · rintro ⟨j, hj, hne⟩
    rw [getCell, List.getD_eq_getElem?_getD, List.getElem?_eq_getElem hj] at hne
    exact ⟨r[j], List.getElem_mem hj, by simpa using hne⟩

theorem colEmpty_eq_false_iff (t : Table) (j : Nat) :
    colEmpty t j = false ↔ ∃ r ∈ t, getCell r j ≠ none := by
  rw [colEmpty, List.all_eq_false]
  simp

theorem mem_keepCols (t : Table) (w j : Nat) :
    j ∈ keepCols t w ↔ j < w ∧ ∃ r ∈ t, getCell r j ≠ none := by
  rw [keepCols, List.mem_filter, List.mem_range]
  rw [Bool.not_eq_eq_eq_not, Bool.not_true, colEmpty_eq_false_iff]

theorem length_selectCols (r : Row) (js : List Nat) :
    (selectCols r js).length = js.length :=
  List.length_map js _

theorem getCell_selectCols (r : Row) (js : List Nat) (p : Nat) (hp : p < js.length) :
    getCell (selectCols r js) p = getCell r (js.get ⟨p, hp⟩) := by
  rw [selectCols, getCell, List.getD_eq_getElem?_getD, List.getElem?_map,
    List.getElem?_eq_getElem hp]
  rfl

theorem exists_getCell_ne (r1 r2 : Row) (hl : r1.length = r2.length) (hne : r1 ≠ r2) :
    ∃ j, j < r1.length ∧ getCell r1 j ≠ getCell r2 j := by
  by_contra hall
  push_neg at hall
  refine hne (List.ext_getElem hl ?_)
  intro n h1 h2
  have := hall n h1
  rw [getCell, getCell, List.getD_eq_getElem?_getD, List.getD_eq_getElem?_getD,
    List.getElem?_eq_getElem h1, List.getElem?_eq_getElem h2] at this
  simpa using this

theorem selectCols_range (r : Row) : selectCols r (List.range r.length) = r := by
  refine List.ext_getElem ?_ ?_
  · simp [selectCols]
  · intro n h1 h2
    simp only [selectCols, List.getElem_map, List.getElem_range]
    rw [getCell, List.getD_eq_getElem?_getD, List.getElem?_eq_getElem h2]
    rfl

/-! ## Helper lemmas: the cleaning pipeline -/

-- rows of the intermediate table t3 are stripped input rows
theorem mem_t3 (t : Table) (r : Row)
    (hr : r ∈ dropEmptyRows (firsts (stripTable t))) :
    r ∈ stripTable t :=
  (mem_firsts _ _).mp (List.mem_of_mem_filter hr)

theorem t3_stripped (t : Table) (r : Row)
    (hr : r ∈ dropEmptyRows (firsts (stripTable t))) :
    stripRow r = r := by
  obtain ⟨r0, _, he⟩ := List.mem_map.mp (mem_t3 t r hr)
  rw [← he, stripRow_idem]

theorem t3_nodup (t : Table) : (dropEmptyRows (firsts (stripTable t))).Nodup :=
  (nodup_firsts _).filter _

theorem t3_not_empty (t : Table) (r : Row)
    (hr : r ∈ dropEmptyRows (firsts (stripTable t))) :
    rowEmpty r = false := by
  have := (List.mem_filter.mp hr).2
  simpa using this

theorem t3_length (t : Table) (w : Nat) (hw : ∀ r ∈ t, r.length = w) (r : Row)
    (hr : r ∈ dropEmptyRows (firsts (stripTable t))) :
    r.length = w := by
  obtain ⟨r0, h0, he⟩ := List.mem_map.mp (mem_t3 t r hr)
  rw [← he, length_stripRow]
  exact hw r0 h0

theorem t3_sublist (t : Table) :
    (dropEmptyRows (firsts (stripTable t))).Sublist (stripTable t) :=
  (List.filter_sublist _).trans (firsts_sublist _)

-- map over the kept columns is injective on rows of t3
theorem selectCols_inj (t : Table) (w : Nat) (hw : ∀ r ∈ t, r.length = w)
    (r1 r2 : Row)
    (h1 : r1 ∈ dropEmptyRows (firsts (stripTable t)))
    (h2 : r2 ∈ dropEmptyRows (firsts (stripTable t)))
    (heq : selectCols r1 (keepCols (dropEmptyRows (firsts (stripTable t))) w)
         = selectCols r2 (keepCols (dropEmptyRows (firsts (stripTable t))) w)) :
    r1 = r2 := by
  set t3 := dropEmptyRows (firsts (stripTable t)) with ht3
  by_contra hne
  obtain ⟨j, hj, hcne⟩ := exists_getCell_ne r1 r2 (by
    rw [t3_length t w hw r1 h1, t3_length t w hw r2 h2]) hne
  rw [t3_length t w hw r1 h1] at hj
  have hjin : j ∈ keepCols t3 w := by
    rw [mem_keepCols]
    refine ⟨hj, ?_⟩
    by_cases hc1 : getCell r1 j = none
    · exact ⟨r2, h2, by rw [hc1] at hcne; exact fun he => hcne he.symm⟩
    · exact ⟨r1, h1, hc1⟩
  have := (List.map_eq_map_iff).mp heq j hjin
  exact hcne this

theorem clean_fst_nodup (t : Table) (w : Nat) (hw : ∀ r ∈ t, r.length = w) :
    ((clean t w).1).Nodup := by
  refine List.Nodup.map_on ?_ (t3_nodup t)
  intro r1 h1 r2 h2 heq
  exact selectCols_inj t w hw r1 r2 h1 h2 heq

theorem hasDuplicateRows_eq_false_iff (t : Table) :
    hasDuplicateRows t = false ↔ t.Nodup := by
  induction t with
  | nil => simp [hasDuplicateRows]
  | cons r rest ih =>
    rw [hasDuplicateRows, Bool.or_eq_false_iff, List.nodup_cons, ih]
    constructor
    · rintro ⟨h1, h2⟩
      exact ⟨by simpa using h1, h2⟩
    · rintro ⟨h1, h2⟩
      exact ⟨by simpa using h1, h2⟩

-- cells of a cleaned row are strip-invariant
theorem stripRow_selectCols (t : Table) (r : Row)
    (hr : r ∈ dropEmptyRows (firsts (stripTable t))) (js : List Nat) :
    stripRow (selectCols r js) = selectCols r js := by
  rw [stripRow, selectCols, List.map_map]
  refine List.map_congr_left ?_
  intro j _
  show stripCell (getCell r j) = getCell r j
  conv_lhs => rw [← t3_stripped t r hr, getCell_stripRow, stripCell_idem]
  rw [← getCell_stripRow, t3_stripped t r hr]

theorem clean_idem_aux (t : Table) (w : Nat) (hw : ∀ r ∈ t, r.length = w) :
    clean (clean t w).1 (clean t w).2 = clean t w := by
  set t3 := dropEmptyRows (firsts (stripTable t)) with ht3
  set js := keepCols t3 w with hjs
  have hcl : clean t w = (t3.map (fun r => selectCols r js), js.length) := rfl
  set out := t3.map (fun r => selectCols r js) with hout
  -- step 1: stripping the cleaned table changes nothing
  have hstrip : stripTable out = out := by
    rw [hout, stripTable, List.map_map]
    refine List.map_congr_left ?_
    intro r hr
    exact stripRow_selectCols t r hr js
  -- nodup of out
  have hnd : out.Nodup := clean_fst_nodup t w hw
  have hfirsts : firsts out = out := firsts_eq_self_of_nodup out hnd
  -- step 3: no fully-empty rows remain
  have hrows : dropEmptyRows out = out := by
    rw [dropEmptyRows, List.filter_eq_self]
    intro r' hr'
    obtain ⟨r, hr, he⟩ := List.mem_map.mp hr'
    obtain ⟨j, hj, hcne⟩ := (rowEmpty_eq_false_iff r).mp (t3_not_empty t r hr)
    rw [t3_length t w hw r hr] at hj
    have hjin : j ∈ js := by
      rw [hjs, mem_keepCols]
      exact ⟨hj, r, hr, hcne⟩
    have hmem : getCell r j ∈ r' := by
      rw [← he, selectCols]
      exact List.mem_map.mpr ⟨j, hjin, rfl⟩
    have : rowEmpty r' = false := by
      rw [rowEmpty, List.all_eq_false]
      exact ⟨getCell r j, hmem, by simpa using hcne⟩
    simp [this]
  -- step 4: every remaining column has a non-empty cell
  have hcols : keepCols out js.length = List.range js.length := by
    rw [keepCols, List.filter_eq_self]
    intro p hp
    rw [List.mem_range] at hp
    have hjmem : js.get ⟨p, hp⟩ ∈ js := List.get_mem js p hp
    have hkeep : js.get ⟨p, hp⟩ ∈ keepCols t3 w := hjs ▸ hjmem
    obtain ⟨-, r, hr, hcne⟩ := (mem_keepCols t3 w _).mp hkeep
    have hsel : getCell (selectCols r js) p ≠ none := by
      rw [getCell_selectCols r js p hp]
      exact hcne
    have : colEmpty out p = false := by
      rw [colEmpty_eq_false_iff]
      exact ⟨selectCols r js, List.mem_map.mpr ⟨r, hr, rfl⟩, hsel⟩
    simp [this]
  -- step 5: selecting all columns is the identity
  have hsel_id : out.map (fun r' => selectCols r' (List.range js.length)) = out := by
    conv_rhs => rw [← List.map_id out]
    refine List.map_congr_left ?_
    intro r' hr'
    obtain ⟨r, _, he⟩ := List.mem_map.mp hr'
    have hlen : r'.length = js.length := by
      rw [← he, length_selectCols]
    show selectCols r' (List.range js.length) = r'
    rw [← hlen]
    exact selectCols_range r'
  -- assemble
  show (let t3x := dropEmptyRows (firsts (stripTable (clean t w).1))
        let jsx := keepCols t3x (clean t w).2
        (t3x.map (fun r => selectCols r jsx), jsx.length)) = clean t w
  rw [hcl]
  simp only [hstrip, hfirsts, hrows, hcols, hsel_id]
  rw [List.length_range]


theorem lt_length_of_getCell_ne_none (r : Row) (j : Nat) (h : getCell r j ≠ none) :
    j < r.length := by
  by_contra hge
  apply h
  rw [getCell, List.getD_eq_getElem?_getD, List.getElem?_eq_none (Nat.le_of_not_lt hge)]
  rfl

theorem getCell_modifyCol (r : Row) (j k : Nat) :
    getCell (modifyCol to_numeric_cell j r) k
      = if k = j then to_numeric_cell (getCell r k) else getCell r k := by
  induction r generalizing j k with
  | nil =>
    have hmod : modifyCol to_numeric_cell j [] = [] := by cases j <;> rfl
    rw [hmod]
    by_cases h : k = j <;> simp [h, getCell, to_numeric_cell]
  | cons c rest ih =>
    cases j with
    | zero =>
      cases k with
      | zero => simp [modifyCol, getCell]
      | succ m => simp [modifyCol, getCell, Nat.succ_ne_zero]
    | succ n =>
      cases k with
      | zero =>
        simp only [modifyCol]
        have : (0 : Nat) ≠ n + 1 := by omega
        simp [getCell, this]
      | succ m =>
        simp only [modifyCol]
        have h1 : getCell (c :: modifyCol to_numeric_cell n rest) (m + 1)
            = getCell (modifyCol to_numeric_cell n rest) m := rfl
        have h2 : getCell (c :: rest) (m + 1) = getCell rest m := rfl
        rw [h1, h2, ih]
        by_cases h : m = n
        · simp [h]
        · have : ¬ (m + 1 = n + 1) := by omega
          simp [h, this]

theorem getD_map_row (t : Table) (g : Row → Row) (hg : g [] = []) (i : Nat) :
    (t.map g).getD i [] = g (t.getD i []) := by
  rw [List.getD_eq_getElem?_getD, List.getD_eq_getElem?_getD, List.getElem?_map]
  cases t[i]? with
  | none => simpa using hg.symm
  | some r => rfl

/-! ## The claims -/

/-- C1: the claim that trimming, title-casing and make_unique always
produce pairwise-distinct column names fails on the code: for raw
columns [A, A, A_1] the second A is renamed A_1, colliding with the
third column, so two columns share the identical name. -/
theorem C1_uniquification_produces_collision :
    normalizeCols ["A", "A", "A_1"] = ["A", "A_1", "A_1"]
    ∧ ¬ (normalizeCols ["A", "A", "A_1"]).Nodup := by
  constructor
  · decide
  · decide

/-- C6 counterexample: applying make_unique to its own output can
change it again — the output for [A, A, A_1] contains a duplicate, so a
second application re-suffixes it. -/
theorem C6_not_idempotent_counterexample :
    make_unique (make_unique ["A", "A", "A_1"]) ≠ make_unique ["A", "A", "A_1"] := by
  decide

/-- C6 (amended): whenever the first application's output is pairwise
distinct, applying make_unique a second time returns it unchanged. -/
theorem C6_make_unique_idem_on_nodup (cols : List String)
    (h : (make_unique cols).Nodup) :
    make_unique (make_unique cols) = make_unique cols :=
  make_unique_eq_self_of_nodup _ h

/-- C6 witness: the amended idempotence at the concrete input
[A, B, A], whose make_unique output is duplicate-free. -/
theorem C6_make_unique_idem_on_nodup_witness :
    (make_unique ["A", "B", "A"]).Nodup
    ∧ make_unique (make_unique ["A", "B", "A"]) = make_unique ["A", "B", "A"] :=
  ⟨by decide, C6_make_unique_idem_on_nodup ["A", "B", "A"] (by decide)⟩

/-- C7: header normalization trims and title-cases each name and then
applies exactly the per-name 1-based occurrence-counter suffix rule
(first occurrence unsuffixed, k-th duplicate suffixed with _k); in
particular [Name, name, Name] normalizes to [Name, Name_1, Name_2]. -/
theorem C7_normalization_suffix_rule :
    (∀ cols : List String, normalizeCols cols = suffix_rule [] (cols.map normalizeCol))
    ∧ normalizeCols ["Name", "name", "Name"] = ["Name", "Name_1", "Name_2"] := by
  constructor
  · intro cols
    rw [normalizeCols, make_unique_eq_rule]
  · decide

/-- C9: an index is selectable as header row exactly when it is at
most 50 and at most the loaded sheet's row count minus one (0-based;
the lower bound 0 is implicit in Nat). -/
theorem C9_header_row_bound (n i : Nat) :
    linha_cabecalho_valid n i = true ↔ i ≤ 50 ∧ i ≤ n - 1 := by
  simp [linha_cabecalho_valid, linha_cabecalho_max, Nat.le_min]

/-- C4 counterexample: the per-unit dashboard step overwrites the
cleaned table — coercing the value column of a table holding the
non-numeric string abc changes that cell to empty. -/
theorem C4_downstream_mutates_counterexample :
    setColNumeric [[some (Val.vStr "abc")]] 0 ≠ [[some (Val.vStr "abc")]] := by
  decide

/-- C4 (amended): the per-unit dashboard's column assignment changes
only the selected column j, replacing each of its cells by its numeric
coercion; every cell of every other column, and the number of rows, are
unchanged. -/
theorem C4_mutation_frame (t : Table) (j i k : Nat) :
    (setColNumeric t j).length = t.length
    ∧ getCell ((setColNumeric t j).getD i []) k
      = (if k = j then to_numeric_cell (getCell (t.getD i []) k)
         else getCell (t.getD i []) k) := by
  constructor
  · exact List.length_map t _
  · rw [setColNumeric, getD_map_row t _ (by cases j <;> rfl) i, getCell_modifyCol]

/-- C2 counterexample: on a cleaned two-row table whose second row has
an empty unit cell but a non-empty person cell, the per-combination
counts sum to 1 while the table holds 2 non-empty target values (the
groupby drops rows with an empty grouping key). -/
theorem C2_sum_undercounts_counterexample :
    resumoSum [[some (Val.vStr "A"), some (Val.vStr "Y"), some (Val.vStr "q")],
               [none, some (Val.vStr "X"), some (Val.vStr "p")]] 0 1 2 = 1
    ∧ countTarget [[some (Val.vStr "A"), some (Val.vStr "Y"), some (Val.vStr "q")],
               [none, some (Val.vStr "X"), some (Val.vStr "p")]] 2 = 2
    ∧ clean [[some (Val.vStr "A"), some (Val.vStr "Y"), some (Val.vStr "q")],
               [none, some (Val.vStr "X"), some (Val.vStr "p")]] 3
      = ([[some (Val.vStr "A"), some (Val.vStr "Y"), some (Val.vStr "q")],
               [none, some (Val.vStr "X"), some (Val.vStr "p")]], 3) := by
  refine ⟨by decide, by decide, by decide⟩

/-- C2 (amended): the sum of all per-(unit, portfolio) counts equals
the number of rows whose two grouping cells are both non-empty and whose
target cell is non-empty. -/
theorem C2_resumoSum_counts_rows_with_full_keys (t : Table) (i j p : Nat) :
    resumoSum t i j p
      = t.countP (fun r => validKey2 i j r && (getCell r p).isSome) := by
  have h := sum_firsts_countP (fun r => (getCell r i, getCell r j))
    (fun r => (getCell r p).isSome) (t.filter (validKey2 i j))
  rw [resumoSum]
  simp only [resumo, List.map_map, Function.comp_def]
  rw [h, List.countP_filter]
  refine List.countP_congr ?_
  intro r _
  simp [Bool.and_comm]

/-- C3 counterexample: for a group holding the strings abc and 1, the
code concatenates before coercing, so the whole group is dropped and the
path warns, while cell-wise coercion (the claim) would chart the group
with sum 1. -/
theorem C3_cellwise_coercion_counterexample :
    pieStep [[some (Val.vStr "X"), some (Val.vStr "abc")],
             [some (Val.vStr "X"), some (Val.vStr "1")]] 0 1 = PieOutcome.warn
    ∧ resumo_pizza_cellwise [[some (Val.vStr "X"), some (Val.vStr "abc")],
             [some (Val.vStr "X"), some (Val.vStr "1")]] 0 1
        = [(some (Val.vStr "X"), 1)]
    ∧ pieStep [[some (Val.vStr "X"), some (Val.vStr "abc")],
             [some (Val.vStr "X"), some (Val.vStr "1")]] 0 1
        ≠ PieOutcome.chart (resumo_pizza_cellwise
            [[some (Val.vStr "X"), some (Val.vStr "abc")],
             [some (Val.vStr "X"), some (Val.vStr "1")]] 0 1) := by
  refine ⟨by decide, by decide, by decide⟩

/-- C3 (amended): the pie path sums the raw cell values per group
first and only then coerces; when no group sum raises, the path warns
exactly when every per-group sum fails numeric coercion, and otherwise
charts exactly the groups whose sums coerce. -/
theorem C3_pie_coerces_group_sums (t : Table) (c v : Nat)
    (hnc : ∀ kv ∈ resumo_pizza t c v, kv.2 ≠ none) :
    (pieStep t c v = PieOutcome.warn ↔
      ∀ kv ∈ resumo_pizza t c v, ∀ s, kv.2 = some s → toNumericInt s = none)
    ∧ (coercedGroups t c v ≠ [] →
        pieStep t c v = PieOutcome.chart (coercedGroups t c v)) := by
  have hany : (resumo_pizza t c v).any (fun kv => kv.2 = none) = false := by
    rw [List.any_eq_false]
    intro kv hkv
    simpa using hnc kv hkv
  have hps : pieStep t c v = (if coercedGroups t c v = [] then PieOutcome.warn
      else PieOutcome.chart (coercedGroups t c v)) := by
    rw [pieStep, hany]
    simp
  have hempty : coercedGroups t c v = [] ↔
      ∀ kv ∈ resumo_pizza t c v, ∀ s, kv.2 = some s → toNumericInt s = none := by
    rw [coercedGroups, List.filterMap_eq_nil_iff]
    constructor
    · intro hall kv hkv s hs
      have := hall kv hkv
      rw [hs] at this
      simp only [Option.some_bind] at this
      exact Option.map_eq_none'.mp this
    · intro hall kv hkv
      obtain ⟨s, hs⟩ := Option.ne_none_iff_exists.mp (hnc kv hkv)
      rw [← hs]
      simp only [Option.some_bind]
      rw [Option.map_eq_none']
      exact hall kv hkv s hs.symm
  constructor
  · rw [hps]
    by_cases he : coercedGroups t c v = []
    · rw [if_pos he]
      constructor
      · intro _
        exact hempty.mp he
      · intro _
        rfl
    · rw [if_neg he]
      constructor
      · intro hcontra
        exact absurd hcontra (by simp)
      · intro hall
        exact absurd (hempty.mpr hall) he
  · intro hne
    rw [hps, if_neg hne]

/-- C3 witness: the amended statement at a concrete all-string table
where every group sum fails coercion, so the path warns. -/
theorem C3_pie_coerces_group_sums_witness :
    (∀ kv ∈ resumo_pizza [[some (Val.vStr "X"), some (Val.vStr "abc")],
             [some (Val.vStr "X"), some (Val.vStr "zz")]] 0 1, kv.2 ≠ none)
    ∧ ((pieStep [[some (Val.vStr "X"), some (Val.vStr "abc")],
             [some (Val.vStr "X"), some (Val.vStr "zz")]] 0 1 = PieOutcome.warn ↔
        ∀ kv ∈ resumo_pizza [[some (Val.vStr "X"), some (Val.vStr "abc")],
             [some (Val.vStr "X"), some (Val.vStr "zz")]] 0 1,
          ∀ s, kv.2 = some s → toNumericInt s = none)
      ∧ (coercedGroups [[some (Val.vStr "X"), some (Val.vStr "abc")],
             [some (Val.vStr "X"), some (Val.vStr "zz")]] 0 1 ≠ [] →
          pieStep [[some (Val.vStr "X"), some (Val.vStr "abc")],
             [some (Val.vStr "X"), some (Val.vStr "zz")]] 0 1
            = PieOutcome.chart (coercedGroups
                [[some (Val.vStr "X"), some (Val.vStr "abc")],
                 [some (Val.vStr "X"), some (Val.vStr "zz")]] 0 1))) :=
  ⟨by decide, C3_pie_coerces_group_sums _ 0 1 (by decide)⟩

/-- C5: cleaning keeps the surviving rows as a subsequence of the
trimmed input rows and the surviving columns as a subsequence of the
input columns (order preserved); every non-empty input row survives (as
its trimmed form, one copy per duplicate class) and every column holding
a non-empty cell survives. -/
theorem C5_cleaning_preserves_nonempty (t : Table) (w : Nat) (r : Row) (j : Nat)
    (hr : r ∈ t) (hrow : rowEmpty r = false)
    (hj : j < w) (hcol : ∃ r2 ∈ t, getCell r2 j ≠ none) :
    (clean t w).1 = (dropEmptyRows (firsts (stripTable t))).map
        (fun r2 => selectCols r2 (keepCols (dropEmptyRows (firsts (stripTable t))) w))
    ∧ (dropEmptyRows (firsts (stripTable t))).Sublist (stripTable t)
    ∧ (keepCols (dropEmptyRows (firsts (stripTable t))) w).Sublist (List.range w)
    ∧ stripRow r ∈ dropEmptyRows (firsts (stripTable t))
    ∧ j ∈ keepCols (dropEmptyRows (firsts (stripTable t))) w := by
  have hmem : ∀ r0 ∈ t, rowEmpty r0 = false →
      stripRow r0 ∈ dropEmptyRows (firsts (stripTable t)) := by
    intro r0 h0 hne
    refine List.mem_filter.mpr ⟨?_, ?_⟩
    · exact (mem_firsts _ _).mpr (List.mem_map.mpr ⟨r0, h0, rfl⟩)
    · rw [rowEmpty_stripRow, hne]
      rfl
  refine ⟨rfl, t3_sublist t, List.filter_sublist _, hmem r hr hrow, ?_⟩
  obtain ⟨r2, hr2, hc2⟩ := hcol
  have hlt : j < r2.length := lt_length_of_getCell_ne_none r2 j hc2
  have hne2 : rowEmpty r2 = false :=
    (rowEmpty_eq_false_iff r2).mpr ⟨j, hlt, hc2⟩
  rw [mem_keepCols]
  refine ⟨hj, stripRow r2, hmem r2 hr2 hne2, ?_⟩
  rw [getCell_stripRow]
  intro hcon
  exact hc2 ((stripCell_eq_none_iff _).mp hcon)

/-- C5 witness: row and column survival at a concrete two-row table
with one non-empty and one fully-empty row. -/
theorem C5_cleaning_preserves_nonempty_witness :
    stripRow [some (Val.vStr " a ")]
        ∈ dropEmptyRows (firsts (stripTable [[some (Val.vStr " a ")], [none]]))
    ∧ 0 ∈ keepCols (dropEmptyRows (firsts (stripTable
        [[some (Val.vStr " a ")], [none]]))) 1 :=
  (C5_cleaning_preserves_nonempty [[some (Val.vStr " a ")], [none]] 1
    [some (Val.vStr " a ")] 0 (by decide) (by decide) (by decide) (by decide)).2.2.2

/-- C8: cleaning is idempotent — for every rectangular table, cleaning
the cleaned table (at its new width) returns it unchanged. -/
theorem C8_clean_idempotent (t : Table) (w : Nat) (hw : ∀ r ∈ t, r.length = w) :
    clean (clean t w).1 (clean t w).2 = clean t w :=
  clean_idem_aux t w hw

/-- C8 witness: idempotence at a concrete table that exercises
trimming, duplicate-row removal, empty-row removal and empty-column
removal. -/
theorem C8_clean_idempotent_witness :
    (∀ r ∈ [[some (Val.vStr " a "), none], [some (Val.vStr "a"), none],
            [none, none]], r.length = 2)
    ∧ clean (clean [[some (Val.vStr " a "), none], [some (Val.vStr "a"), none],
            [none, none]] 2).1
        (clean [[some (Val.vStr " a "), none], [some (Val.vStr "a"), none],
            [none, none]] 2).2
      = clean [[some (Val.vStr " a "), none], [some (Val.vStr "a"), none],
            [none, none]] 2 :=
  ⟨by decide, C8_clean_idempotent _ 2 (by decide)⟩

/-- C10: the duplicate-rows inconsistency check is always false on the
cleaned table, because the cleaning step already removed duplicate rows
(and the later row and column drops cannot re-create one). -/
theorem C10_duplicate_warning_never_fires (t : Table) (w : Nat)
    (hw : ∀ r ∈ t, r.length = w) :
    hasDuplicateRows (clean t w).1 = false :=
  (hasDuplicateRows_eq_false_iff _).mpr (clean_fst_nodup t w hw)

/-- C10 witness: the duplicate check at a concrete table whose rows
become duplicates after trimming. -/
theorem C10_duplicate_warning_never_fires_witness :
    (∀ r ∈ [[some (Val.vStr "a")], [some (Val.vStr "a ")]], r.length = 1)
    ∧ hasDuplicateRows (clean [[some (Val.vStr "a")], [some (Val.vStr "a ")]] 1).1
      = false :=
  ⟨by decide, C10_duplicate_warning_never_fires _ 1 (by decide)⟩

end Planilhas
